import Mathlib

/-!
Verification of the vibe-architect repository's streaming chat client,
UI-preview extraction, code repair/validation, and phase state machine.

Texts are modelled as `List Char` (JavaScript strings at character level);
chunked network input is a `List (List Char)`.  Each definition below is a
shallow embedding of the correspondingly named function of the source
(`src/lib/llm-client.ts`, `src/lib/ui-parser.ts`, the sandbox panel, the
markdown component and the project store).
-/

/-- The set of whitespace characters recognised by JavaScript's `trim`
and by the `\s` regex class (ASCII part, which is all the inputs use). -/
def jsWs (c : Char) : Bool :=
  c = ' ' || c = '\t' || c = '\n' || c = '\r' || c = '\x0b' || c = '\x0c'

/-- JavaScript `String.prototype.trim` on a character list. -/
def jsTrim (l : List Char) : List Char :=
  ((l.dropWhile jsWs).reverse.dropWhile jsWs).reverse

/-- Split a text at the first occurrence of `pat`, returning the part
before the occurrence and the part after it (the model of a leftmost
regex / `indexOf` search for a literal pattern). -/
def splitFirst (pat : List Char) : List Char → Option (List Char × List Char)
  | [] => if pat = [] then some ([], []) else none
  | c :: s =>
    if pat.isPrefixOf (c :: s) then some ([], (c :: s).drop pat.length)
    else match splitFirst pat s with
      | some (a, b) => some (c :: a, b)
      | none => none

/-- Whether `pat` occurs as a contiguous substring. -/
def hasSubstr (pat s : List Char) : Bool :=
  (splitFirst pat s).isSome

/-- A pattern is border-free when no proper nonempty suffix of it is also
a prefix (true of both UI-preview delimiters, checked by `decide`). -/
def borderFree (pat : List Char) : Prop :=
  ∀ j, j < pat.length → 0 < j → pat.drop (pat.length - j) ≠ pat.take j

-- ── UI-preview extraction (src/lib/ui-parser.ts) ──
/-- The opening delimiter of a UI-preview block. -/
def uiOpenTag : List Char := "<ui_preview>".toList

/-- The closing delimiter of a UI-preview block. -/
def uiCloseTag : List Char := "</ui_preview>".toList

/-- Worker for `extractUiPreviews`, with fuel making the recursion
structural (the fuel is always sufficient, see `extractGo_fuel`). -/
def extractGo : Nat → List Char → List (List Char)
  | 0, _ => []
  | fuel + 1, s =>
    match splitFirst uiOpenTag s with
    | none => []
    | some (_, afterOpen) =>
      match splitFirst uiCloseTag afterOpen with
      | none => []
      | some (content, rest) =>
        (if jsTrim content = [] then [] else [jsTrim content]) ++ extractGo fuel rest

/-- Model of `extractUiPreviews`: each complete
`<ui_preview>...</ui_preview>` block in order, content trimmed; a block
whose trimmed content is empty is skipped (the `if (code)` truthiness
test of the source). The JS lazy regex with `matchAll` finds, repeatedly,
the first opening tag and then the first closing tag after it. -/
def extractUiPreviews (s : List Char) : List (List Char) :=
  extractGo (s.length + 1) s

/-- Model of `getLatestUiPreview`: the last complete preview, if any. -/
def getLatestUiPreview (s : List Char) : Option (List Char) :=
  (extractUiPreviews s).getLast?

/-- Model of `hasCompleteUiPreview`: the `test` of the lazy block regex,
true iff an opening tag exists with a closing tag after it. -/
def hasCompleteUiPreview (s : List Char) : Bool :=
  match splitFirst uiOpenTag s with
  | none => false
  | some (_, afterOpen) => hasSubstr uiCloseTag afterOpen

/-- Text made of interleaved plain segments and preview blocks, with a
trailing segment: the generic shape of a text containing N blocks. -/
def buildBlocks : List (List Char × List Char) → List Char → List Char
  | [], trailing => trailing
  | (pre, c) :: bs, trailing =>
    pre ++ uiOpenTag ++ (c ++ uiCloseTag ++ buildBlocks bs trailing)

-- ── SSE frame reader (readSSEStream, src/lib/llm-client.ts) ──
/-- The `data: ` line marker of server-sent events. -/
def dataHeader : List Char := "data: ".toList

/-- One line of an SSE stream to its payload: the line is trimmed,
empty lines and lines not starting with `data: ` are skipped, and the
payload is the text after the 6-character `data: ` marker. -/
def lineEvent (line : List Char) : Option (List Char) :=
  let trimmed := jsTrim line
  if trimmed = [] then none
  else if dataHeader.isPrefixOf trimmed then some (trimmed.drop 6)
  else none

/-- Payloads delivered to a stop-predicate callback: everything up to
and including the first payload on which the callback asks to stop. -/
def takeThrough (p : List Char → Bool) : List (List Char) → List (List Char)
  | [] => []
  | e :: es => if p e then [e] else e :: takeThrough p es

/-- JavaScript `String.prototype.split("\n")`: the pieces between
newline characters; always at least one piece. -/
def splitNl : List Char → List (List Char)
  | [] => [[]]
  | c :: s =>
    if c = '\n' then [] :: splitNl s
    else match splitNl s with
      | [] => [[c]]
      | p :: ps => (c :: p) :: ps

/-- Split-and-pop in one step: the newline-terminated lines and the
trailing piece after the last newline (the carry-over). -/
def splitNlIL : List Char → List (List Char) × List Char
  | [] => ([], [])
  | c :: s =>
    let p := splitNlIL s
    if c = '\n' then ([] :: p.1, p.2)
    else match p.1 with
      | [] => ([], c :: p.2)
      | l0 :: ls => ((c :: l0) :: ls, p.2)

/-- Gluing the carry-over of a first part onto the split of a second. -/
def glueIL (fa : List Char) (p : List (List Char) × List Char) :
    List (List Char) × List Char :=
  match p.1 with
  | [] => ([], fa ++ p.2)
  | l0 :: ls => ((fa ++ l0) :: ls, p.2)

/-- Model of `readSSEStream`'s chunk loop: the state is the carry-over
buffer; for each decoded chunk the buffer is appended, re-split on
newlines, the new carry-over is the piece after the last newline
(`buffer = lines.pop() || ""`), and each complete line's `data: `
payload is delivered to the callback, the whole read returning as soon
as the callback asks to stop; when the reader reports done the
remaining buffer is discarded.  Returns the delivered payloads. -/
def readSSEStream (stop : List Char → Bool) :
    List (List Char) → List Char → List (List Char)
  | [], _ => []
  | chunk :: chunks, buffer =>
    let lines := splitNl (buffer ++ chunk)
    let events := lines.dropLast.filterMap lineEvent
    if events.any stop then takeThrough stop events
    else events ++ readSSEStream stop chunks (lines.getLastD [])

/-- The payloads of a complete text: the `data: ` payloads of its
newline-terminated lines, cut at the first stop payload. -/
def sseEventsOf (stop : List Char → Bool) (t : List Char) : List (List Char) :=
  takeThrough stop ((splitNl t).dropLast.filterMap lineEvent)

-- ── Conversation store (src/store/project-store.ts) ──
/-- The four brainstorming phases in their fixed order ("vision",
"design", "stack", "export"; `export` is a Lean keyword, hence
`exportPhase`). -/
inductive ConversationPhase
  | vision
  | design
  | stack
  | exportPhase
deriving DecidableEq, Repr

/-- A chat message (timestamp omitted: no claim mentions it); the role
is kept as the literal JS string. -/
structure Message where
  id : String
  role : String
  content : String
deriving DecidableEq

/-- A conversation record (timestamps omitted).  `specDocs` models the
JS object as a partial map from phase to document text. -/
structure Conversation where
  id : String
  projectId : String
  title : String
  phase : ConversationPhase
  messages : List Message
  sandboxCode : Option String
  specDocs : ConversationPhase → Option String

/-- The array `PHASE_ORDER` of chat-panel.tsx. -/
def PHASE_ORDER : List ConversationPhase :=
  [.vision, .design, .stack, .exportPhase]

/-- The lookup `conversations.find(c => c.id === conversationId)`. -/
def findConv (convs : List Conversation) (conversationId : String) :
    Option Conversation :=
  convs.find? fun c => c.id == conversationId

/-- Store action `setPhase`. -/
def setPhase (convs : List Conversation) (conversationId : String)
    (phase : ConversationPhase) : List Conversation :=
  convs.map fun c =>
    if c.id == conversationId then { c with phase := phase } else c

/-- Store action `setSpecDoc`: `{ ...c.specDocs, [phase]: content }`. -/
def setSpecDoc (convs : List Conversation) (conversationId : String)
    (phase : ConversationPhase) (content : String) : List Conversation :=
  convs.map fun c =>
    if c.id == conversationId then
      { c with specDocs := fun p => if p = phase then some content else c.specDocs p }
    else c

/-- The message-list update of `appendToLastAssistant`: mutate the last
message in place when it exists and is an assistant message. -/
def appendLastMessage (msgs : List Message) (chunk : String) : List Message :=
  match msgs.getLast? with
  | some last =>
    if last.role = "assistant" then
      msgs.dropLast ++ [{ last with content := last.content ++ chunk }]
    else msgs
  | none => msgs

/-- Store action `appendToLastAssistant`. -/
def appendToLastAssistant (convs : List Conversation) (conversationId : String)
    (chunk : String) : List Conversation :=
  convs.map fun c =>
    if c.id == conversationId then
      { c with messages := appendLastMessage c.messages chunk }
    else c

/-- The fallback `conversation?.phase || "vision"` of the chat panel. -/
def currentPhaseOf (convs : List Conversation) (conversationId : String) :
    ConversationPhase :=
  match findConv convs conversationId with
  | some c => c.phase
  | none => .vision

/-- The completion continuation of `handleLockPhase`
(src/components/chat-panel.tsx): with `phase` captured at click time,
store the full streamed response as that phase's spec document, then
advance to the next phase of `PHASE_ORDER` if one remains. -/
def handleLockPhase (convs : List Conversation) (conversationId : String)
    (fullResponse : String) : List Conversation :=
  let phase := currentPhaseOf convs conversationId
  let nextPhaseIdx := PHASE_ORDER.indexOf phase + 1
  let convs2 := setSpecDoc convs conversationId phase fullResponse
  if nextPhaseIdx < PHASE_ORDER.length then
    setPhase convs2 conversationId (PHASE_ORDER.getD nextPhaseIdx .vision)
  else convs2

/-- A fresh demonstration conversation for the witnesses. -/
def demoConv (phase : ConversationPhase) : Conversation :=
  { id := "c1", projectId := "p1", title := "t", phase := phase,
    messages := [], sandboxCode := none, specDocs := fun _ => none }

-- ── Streaming callbacks and cancellation (src/lib/llm-client.ts) ──
/-- A callback invocation of the streaming contract. -/
inductive StreamCallback
  | onChunk (text : String)
  | onDone
  | onError (message : String)
deriving DecidableEq

/-- An exception reaching the adapters' catch blocks: either the
`DOMException` named AbortError raised by the aborted fetch, or any
other error. -/
inductive StreamException
  | abortError
  | other (message : String)
deriving DecidableEq

/-- Model of `handleStreamError`: an abort becomes the completion
callback; everything else becomes the error callback. -/
def handleStreamError : StreamException → StreamCallback
  | .abortError => .onDone
  | .other msg => .onError msg

/-- The chat panel's `startStream` callbacks applied to the store:
`onChunk` appends the delta to the last assistant message, `onError`
appends an error note, `onDone` leaves the messages unchanged. -/
def applyChatCallback (convs : List Conversation) (conversationId : String) :
    StreamCallback → List Conversation
  | .onChunk text => appendToLastAssistant convs conversationId text
  | .onDone => convs
  | .onError message =>
      appendToLastAssistant convs conversationId ("\n\n**Error:** " ++ message)

/-- Concatenation of a list of strings (the accumulated response). -/
def concatStrings : List String → String
  | [] => ""
  | s :: rest => s ++ concatStrings rest

/-- The partially streamed assistant reply of the cancellation witness. -/
def demoAssistantMsg : Message :=
  { id := "m2", role := "assistant", content := "Hel" }

/-- A conversation whose last message is a partially streamed assistant
reply, for the cancellation witness. -/
def demoChatConv : Conversation :=
  { id := "c1", projectId := "p1", title := "t", phase := .vision,
    messages := [{ id := "m1", role := "user", content := "hi" }, demoAssistantMsg],
    sandboxCode := none, specDocs := fun _ => none }

-- ── Provider adapters (src/lib/llm-client.ts) ──
/-- An OpenAI-style SSE payload as the adapter's callback sees it: the
`[DONE]` sentinel, a parsed delta envelope whose content may be absent
or empty, or unparseable JSON. -/
inductive OpenAIData
  | doneSentinel
  | delta (content : Option String)
  | malformed
deriving DecidableEq

/-- A content part of a Mistral array delta. -/
inductive MistralPart
  | textPart (text : String)
  | otherPart
deriving DecidableEq

/-- A Mistral SSE payload: sentinel, string delta, array-of-parts
delta, full-message fallback, or unparseable. -/
inductive MistralData
  | doneSentinel
  | deltaString (s : String)
  | deltaParts (parts : List MistralPart)
  | messageContent (text : Option String)
  | malformed
deriving DecidableEq

/-- A Gemini SSE payload: candidate text or unparseable. -/
inductive GeminiData
  | textDelta (text : Option String)
  | malformed
deriving DecidableEq

/-- An Anthropic SSE payload: a content-block delta, the typed
`message_stop` event, another event type, or unparseable. -/
inductive AnthropicData
  | contentBlockDelta (text : Option String)
  | messageStop
  | otherEvent
  | malformed
deriving DecidableEq

/-- Model of `streamOpenAI`'s callback sequence over the payloads
delivered by `readSSEStream`: on `[DONE]` the sentinel branch invokes
`onDone()` and stops the reader, after which control falls through to
the unconditional `onDone()` after `await readSSEStream` — completion
fires twice; truthy delta content goes to `onChunk`; malformed payloads
are skipped; without a sentinel the trailing `onDone()` fires once. -/
def streamOpenAI : List OpenAIData → List StreamCallback
  | [] => [.onDone]
  | .doneSentinel :: _ => [.onDone, .onDone]
  | .delta (some s) :: rest =>
    if s = "" then streamOpenAI rest else .onChunk s :: streamOpenAI rest
  | .delta none :: rest => streamOpenAI rest
  | .malformed :: rest => streamOpenAI rest

/-- Model of `streamMistral`'s callback sequence (same double-`onDone`
on the sentinel; string deltas and full-message fallbacks are forwarded
even when empty, text-typed array parts are concatenated in order). -/
def streamMistral : List MistralData → List StreamCallback
  | [] => [.onDone]
  | .doneSentinel :: _ => [.onDone, .onDone]
  | .deltaString s :: rest => .onChunk s :: streamMistral rest
  | .deltaParts parts :: rest =>
    (parts.filterMap fun p => match p with
      | .textPart t => some (StreamCallback.onChunk t)
      | .otherPart => none) ++ streamMistral rest
  | .messageContent (some t) :: rest => .onChunk t :: streamMistral rest
  | .messageContent none :: rest => streamMistral rest
  | .malformed :: rest => streamMistral rest

/-- Model of `streamGemini`'s callback sequence: no sentinel handling at
all, one completion after the reader finishes. -/
def streamGemini : List GeminiData → List StreamCallback
  | [] => [.onDone]
  | .textDelta (some s) :: rest =>
    if s = "" then streamGemini rest else .onChunk s :: streamGemini rest
  | .textDelta none :: rest => streamGemini rest
  | .malformed :: rest => streamGemini rest

/-- Model of `streamAnthropic`'s callback sequence: `message_stop`
invokes `onDone()` and stops the reader, then the post-reader `onDone()`
fires again. -/
def streamAnthropic : List AnthropicData → List StreamCallback
  | [] => [.onDone]
  | .contentBlockDelta (some s) :: rest =>
    if s = "" then streamAnthropic rest else .onChunk s :: streamAnthropic rest
  | .contentBlockDelta none :: rest => streamAnthropic rest
  | .messageStop :: _ => [.onDone, .onDone]
  | .otherEvent :: rest => streamAnthropic rest
  | .malformed :: rest => streamAnthropic rest

-- ── JSX structural validation and truncation repair (sandbox panel) ──
/-- The quote/brace/paren scanner state shared by the validator and the
repairer.  `stringChar` starts as a dummy (JS uses the empty string);
it is only read while `inString` is set. -/
structure ScanState where
  inString : Bool
  stringChar : Char
  inTemplate : Bool
  braces : Int
  parens : Int
deriving DecidableEq, Repr

/-- The initial scanner state. -/
def initScanState : ScanState :=
  { inString := false, stringChar := ' ', inTemplate := false,
    braces := 0, parens := 0 }

/-- The character scan of `validateJSXStructure`: tracks single- and
double-quoted strings and backtick templates (with the source's naive
`prev !== '\\'` escape test on the preceding character of the text),
skips `//` comments up to the newline and `/* ... */` block comments,
and counts braces and parentheses outside those regions.  `prev` is
`code[i-1]`, `none` at the start.  The fuel only makes the skipping
recursion structural; `validatorState` supplies enough of it. -/
def validateScan : Nat → List Char → Option Char → ScanState → ScanState
  | 0, _, _, st => st
  | _ + 1, [], _, st => st
  | fuel + 1, c :: rest, prev, st =>
    if st.inString then
      if c = st.stringChar ∧ prev ≠ some '\\' then
        validateScan fuel rest (some c) { st with inString := false }
      else validateScan fuel rest (some c) st
    else if st.inTemplate then
      if c = '`' ∧ prev ≠ some '\\' then
        validateScan fuel rest (some c) { st with inTemplate := false }
      else validateScan fuel rest (some c) st
    else if c = '/' ∧ rest.head? = some '/' then
      validateScan fuel ((rest.dropWhile fun ch => ch ≠ '\n').drop 1) (some '\n') st
    else if c = '/' ∧ rest.head? = some '*' then
      match splitFirst "*/".toList rest.tail with
      | some (_, afterComment) => validateScan fuel afterComment (some '/') st
      | none => st
    else if c = '"' ∨ c = '\x27' then
      validateScan fuel rest (some c) { st with inString := true, stringChar := c }
    else if c = '`' then
      validateScan fuel rest (some c) { st with inTemplate := true }
    else if c = '{' then
      validateScan fuel rest (some c) { st with braces := st.braces + 1 }
    else if c = '}' then
      validateScan fuel rest (some c) { st with braces := st.braces - 1 }
    else if c = '(' then
      validateScan fuel rest (some c) { st with parens := st.parens + 1 }
    else if c = ')' then
      validateScan fuel rest (some c) { st with parens := st.parens - 1 }
    else validateScan fuel rest (some c) st

/-- The validator's scanner state at end of text. -/
def validatorState (code : List Char) : ScanState :=
  validateScan (code.length + 1) code none initScanState

/-- The class `\w` of the function-definition regex. -/
def isWordChar (c : Char) : Bool :=
  ('a' ≤ c && c ≤ 'z') || ('A' ≤ c && c ≤ 'Z') || ('0' ≤ c && c ≤ '9') || c = '_'

/-- Whether `function\s+\w+` matches at the start of `s`. -/
def functionDefAt (s : List Char) : Bool :=
  "function".toList.isPrefixOf s &&
    (decide (((s.drop 8).takeWhile jsWs) ≠ [])) &&
    (match (s.drop 8).dropWhile jsWs with
      | c :: _ => isWordChar c
      | [] => false)

/-- Model of the `/function\s+\w+/` regex test. -/
def hasFunctionDef : List Char → Bool
  | [] => false
  | c :: rest => functionDefAt (c :: rest) || hasFunctionDef rest

/-- Model of `validateJSXStructure`, with `Except.error` for `throw`. -/
def validateJSXStructure (code : List Char) : Except String Unit :=
  let st := validatorState code
  if st.inString then .error "Unclosed string literal detected"
  else if st.inTemplate then .error "Unclosed template literal detected"
  else if st.braces ≠ 0 then
    .error ("Mismatched braces: " ++
      (if st.braces > 0 then toString st.braces ++ " unclosed"
       else toString st.braces.natAbs ++ " extra closing"))
  else if st.parens ≠ 0 then
    .error ("Mismatched parentheses: " ++
      (if st.parens > 0 then toString st.parens ++ " unclosed"
       else toString st.parens.natAbs ++ " extra closing"))
  else if ¬ hasFunctionDef code then
    .error "No function component found in generated code"
  else .ok ()

/-- The brace/paren/quote scan of `repairTruncatedCode` (which, unlike
the validator, does not skip comments). -/
def repairScan : List Char → Option Char → ScanState → ScanState
  | [], _, st => st
  | c :: rest, prev, st =>
    if st.inString then
      if c = st.stringChar ∧ prev ≠ some '\\' then
        repairScan rest (some c) { st with inString := false }
      else repairScan rest (some c) st
    else if st.inTemplate then
      if c = '`' ∧ prev ≠ some '\\' then
        repairScan rest (some c) { st with inTemplate := false }
      else repairScan rest (some c) st
    else if c = '"' ∨ c = '\x27' then
      repairScan rest (some c) { st with inString := true, stringChar := c }
    else if c = '`' then
      repairScan rest (some c) { st with inTemplate := true }
    else if c = '{' then
      repairScan rest (some c) { st with braces := st.braces + 1 }
    else if c = '}' then
      repairScan rest (some c) { st with braces := st.braces - 1 }
    else if c = '(' then
      repairScan rest (some c) { st with parens := st.parens + 1 }
    else if c = ')' then
      repairScan rest (some c) { st with parens := st.parens - 1 }
    else repairScan rest (some c) st

/-- Kind of a JSX tag match. -/
inductive TagKind
  | openTag
  | closeTag
  | selfTag
deriving DecidableEq, Repr

/-- The class `[A-Z]`. -/
def isUpperChar (c : Char) : Bool := 'A' ≤ c && c ≤ 'Z'

/-- The class `[A-Za-z0-9.]` of the tag-name regexes. -/
def isTagNameChar (c : Char) : Bool :=
  ('A' ≤ c && c ≤ 'Z') || ('a' ≤ c && c ≤ 'z') || ('0' ≤ c && c ≤ '9') || c = '.'

/-- Match of the open-tag regex `<([A-Z][A-Za-z0-9.]*)[^>]*(?<!\/)>` or
the self-close regex `<([A-Z][A-Za-z0-9.]*)[^>]*\/>` at the head of
`u`.  Both regexes must end at the first `>` after the greedy tag name
(`[^>]*` cannot cross a `>`), so exactly one of them can match at a
given position, decided by the character before that `>`; returns the
kind, the captured name and the match length. -/
def matchOpenSelfAt (u : List Char) : Option ((TagKind × List Char) × Nat) :=
  match u with
  | '<' :: c0 :: rest2 =>
    if isUpperChar c0 then
      let nameTail := rest2.takeWhile isTagNameChar
      let name := c0 :: nameTail
      let afterName := rest2.drop nameTail.length
      let inner := afterName.takeWhile fun ch => ch ≠ '>'
      match afterName.drop inner.length with
      | '>' :: _ =>
        let prevChar := if inner = [] then name.getLastD c0 else inner.getLastD c0
        let len := 1 + name.length + inner.length + 1
        if prevChar = '/' then some ((.selfTag, name), len)
        else some ((.openTag, name), len)
      | _ => none
    else none
  | _ => none

/-- Match of the close-tag regex `<\/([A-Z][A-Za-z0-9.]*)>`. -/
def matchCloseAt (u : List Char) : Option (List Char × Nat) :=
  match u with
  | '<' :: '/' :: c0 :: rest2 =>
    if isUpperChar c0 then
      let nameTail := rest2.takeWhile isTagNameChar
      match rest2.drop nameTail.length with
      | '>' :: _ => some (c0 :: nameTail, 2 + (c0 :: nameTail).length + 1)
      | _ => none
    else none
  | _ => none

/-- Successive `exec` calls of a global regex: find the leftmost match
at or after the current position, record it with its start index, and
continue after its end. -/
def scanRegex {α : Type} (matcher : List Char → Option (α × Nat)) :
    Nat → List Char → Nat → List (α × Nat)
  | 0, _, _ => []
  | _ + 1, [], _ => []
  | fuel + 1, u, pos =>
    match matcher u with
    | some (a, len) =>
      (a, pos) :: scanRegex matcher fuel (u.drop (max len 1)) (pos + max len 1)
    | none => scanRegex matcher fuel u.tail (pos + 1)

/-- Insertion into a list sorted by match index (the `sort` by
`a.index - b.index`; distinct regexes cannot match at the same index,
so ties do not occur). -/
def insertByIdx (x : (TagKind × List Char) × Nat) :
    List ((TagKind × List Char) × Nat) → List ((TagKind × List Char) × Nat)
  | [] => [x]
  | y :: ys => if x.2 < y.2 then x :: y :: ys else y :: insertByIdx x ys

/-- Sorting the merged tag-match list by index. -/
def sortTags (l : List ((TagKind × List Char) × Nat)) :
    List ((TagKind × List Char) × Nat) :=
  l.foldr insertByIdx []

/-- Remove the last occurrence of `name` (`lastIndexOf` + `splice`);
no-op when absent. -/
def removeLastOcc (stack : List (List Char)) (name : List Char) :
    List (List Char) :=
  (stack.reverse.erase name).reverse

/-- The tag-stack fold of `repairTruncatedCode`: opens push, closes
remove the last matching occurrence, self-closing tags are ignored. -/
def tagStackOf (tags : List ((TagKind × List Char) × Nat)) : List (List Char) :=
  tags.foldl (fun stack t =>
    match t.1.1 with
    | .openTag => stack ++ [t.1.2]
    | .closeTag => removeLastOcc stack t.1.2
    | .selfTag => stack) []

/-- The still-open capitalized JSX tags of `code`, via the three global
regex scans merged and sorted by index. -/
def repairTagStack (code : List Char) : List (List Char) :=
  tagStackOf (sortTags
    (scanRegex matchOpenSelfAt (code.length + 1) code 0 ++
      (scanRegex matchCloseAt (code.length + 1) code 0).map
        fun t => ((TagKind.closeTag, t.1), t.2)))

/-- The text `"\n</" + name + ">"` appended per unclosed tag. -/
def tagCloseText (name : List Char) : List Char :=
  '\n' :: '<' :: '/' :: (name ++ ['>'])

/-- Model of `repairTruncatedCode`: scan the brace/paren excess with
the quote-aware scan, compute the still-open capitalized JSX tags, then
append, in order: one closing tag per stack entry in reverse order,
`)` repeated for a positive paren excess followed by `;`, and `}`
repeated for a positive brace excess. -/
def repairTruncatedCode (code : List Char) : List Char :=
  let st := repairScan code none initScanState
  let tagStack := repairTagStack code
  let suffix0 := tagStack.reverse.foldl (fun acc name => acc ++ tagCloseText name) []
  let suffix1 := if st.parens > 0 then
      suffix0 ++ '\n' :: (List.replicate st.parens.toNat ')' ++ [';'])
    else suffix0
  let suffix2 := if st.braces > 0 then
      suffix1 ++ '\n' :: List.replicate st.braces.toNat '}'
    else suffix1
  if suffix2 = [] then code else code ++ suffix2

-- ── Code-fence stripping (markdown component and sandbox panel) ──
/-- The language alternatives of the preview fence regex
`(?:jsx?|tsx?|react|javascript)?` in the engine's backtracking order
(each `x?` tried greedily, the empty alternative last). -/
def jsFenceLangs : List (List Char) :=
  ["jsx".toList, "js".toList, "tsx".toList, "ts".toList,
   "react".toList, "javascript".toList, []]

/-- The language alternatives of the markdown fence regex
`(?:markdown|md)?`. -/
def mdFenceLangs : List (List Char) :=
  ["markdown".toList, "md".toList, []]

/-- Whether the closing part `\n\s*```\s*$` matches the whole of `u`:
a newline, whitespace, a fence, then only whitespace to the end (the
`\s*` cannot backtrack into the fence because a backtick is not
whitespace). -/
def fenceTailAt (u : List Char) : Bool :=
  match u with
  | '\n' :: u2 =>
    let v := u2.dropWhile jsWs
    "```".toList.isPrefixOf v && (v.drop 3).all jsWs
  | _ => false

/-- The lazy group `([\s\S]*?)` before the closing part: the shortest
prefix whose remainder matches the closing part. -/
def findFenceContent : List Char → Option (List Char)
  | [] => none
  | c :: u2 =>
    if fenceTailAt (c :: u2) then some []
    else (findFenceContent u2).map fun cs => c :: cs

/-- The greedy `\s*\n` after the language tag: try the largest
whitespace prefix ending in a newline first, backtracking to shorter
ones while the lazy content search fails. -/
def fenceTryWs : Nat → List Char → Option (List Char)
  | 0, _ => none
  | k + 1, r =>
    if r.getD k ' ' = '\n' then
      match findFenceContent (r.drop (k + 1)) with
      | some content => some content
      | none => fenceTryWs k r
    else fenceTryWs k r

/-- Try the language alternatives in order, each followed by `\s*\n`
and the content/closing search, falling through on failure. -/
def fenceWithLangs : List (List Char) → List Char → Option (List Char)
  | [], _ => none
  | lang :: more, r =>
    if lang.isPrefixOf r then
      match fenceTryWs (((r.drop lang.length).takeWhile jsWs).length)
          (r.drop lang.length) with
      | some content => some content
      | none => fenceWithLangs more r
    else fenceWithLangs more r

/-- The full-wrap fence regex ```` ^```LANG?\s*\n([\s\S]*?)\n\s*```\s*$ ````
applied to an (already trimmed) text; returns the group-1 content. -/
def fenceFullMatch (langs : List (List Char)) (s : List Char) :
    Option (List Char) :=
  if "```".toList.isPrefixOf s then fenceWithLangs langs (s.drop 3) else none

/-- Model of `stripOuterCodeFence` (the markdown component): trim, then
strip a fence wrapping the entire text when tagged `markdown`/`md` or
untagged; otherwise return the trimmed text. -/
def stripOuterCodeFence (text : List Char) : List Char :=
  let trimmed := jsTrim text
  match fenceFullMatch mdFenceLangs trimmed with
  | some content => content
  | none => trimmed

/-- The consumed length of the anchored leading-fence pattern
`^```LANG?\s*\n` after the three backticks, if it matches. -/
def wsNlLen : Nat → List Char → Option Nat
  | 0, _ => none
  | k + 1, r => if r.getD k ' ' = '\n' then some (k + 1) else wsNlLen k r

/-- The language-alternation loop of the leading-fence pattern. -/
def leadFenceLen : List (List Char) → List Char → Option Nat
  | [], _ => none
  | lang :: more, r =>
    if lang.isPrefixOf r then
      match wsNlLen (((r.drop lang.length).takeWhile jsWs).length)
          (r.drop lang.length) with
      | some k => some (lang.length + k)
      | none => leadFenceLen more r
    else leadFenceLen more r

/-- Models `replace(/^```(?:jsx?|tsx?|react|javascript)?\s*\n/, "")`. -/
def stripLeadingFence (s : List Char) : List Char :=
  if "```".toList.isPrefixOf s then
    match leadFenceLen jsFenceLangs (s.drop 3) with
    | some consumed => s.drop (3 + consumed)
    | none => s
  else s

/-- Whether `\n?```\s*$` matches the whole of `u`. -/
def trailFenceSuffix (u : List Char) : Bool :=
  ("```".toList.isPrefixOf u && (u.drop 3).all jsWs) ||
  (match u with
    | '\n' :: u2 => "```".toList.isPrefixOf u2 && (u2.drop 3).all jsWs
    | _ => false)

/-- Models `replace(/\n?```\s*$/, "")`: remove the suffix starting at the
leftmost position where the end-anchored pattern matches. -/
def stripTrailingFence : List Char → List Char
  | [] => []
  | c :: u => if trailFenceSuffix (c :: u) then [] else c :: stripTrailingFence u

/-- The fence-stripping steps of `handleGeneratePreview`'s onDone
(sandbox panel): trim; strip a full-wrap fence (trimming the group);
then, if the result still starts with a fence, strip the leading fence
line and trim; then, if it still ends with backticks, strip the
trailing fence and trim. -/
def onDoneCleanFences (fullResponse : List Char) : List Char :=
  let cleaned0 := jsTrim fullResponse
  let cleaned1 := match fenceFullMatch jsFenceLangs cleaned0 with
    | some g => jsTrim g
    | none => cleaned0
  let cleaned2 := if "```".toList.isPrefixOf cleaned1 then
      jsTrim (stripLeadingFence cleaned1) else cleaned1
  if "```".toList.isSuffixOf cleaned2 then
    jsTrim (stripTrailingFence cleaned2) else cleaned2

-- ── Theorems ──

theorem isPrefixOf_iff_append : ∀ {p s : List Char},
    p.isPrefixOf s = true ↔ ∃ t, p ++ t = s := by
  intro p
  induction p with
  | nil => intro s; simp [List.isPrefixOf]
  | cons a as ih =>
    intro s
    cases s with
    | nil => simp [List.isPrefixOf]
    | cons b bs =>
      simp only [List.isPrefixOf, Bool.and_eq_true, beq_iff_eq, List.cons_append,
        List.cons.injEq]
      constructor
      · rintro ⟨hab, h⟩
        obtain ⟨t, ht⟩ := ih.mp h
        exact ⟨t, hab, ht⟩
      · rintro ⟨t, hab, ht⟩
        exact ⟨hab, ih.mpr ⟨t, ht⟩⟩

theorem splitFirst_of_isPrefixOf {pat s : List Char} (hpat : pat ≠ [])
    (hp : pat.isPrefixOf s = true) :
    splitFirst pat s = some ([], s.drop pat.length) := by
  cases s with
  | nil =>
    obtain ⟨t, ht⟩ := isPrefixOf_iff_append.mp hp
    exact absurd (List.append_eq_nil.mp ht).1 hpat
  | cons c t => simp [splitFirst, hp]

theorem splitFirst_sound {pat s a b : List Char}
    (h : splitFirst pat s = some (a, b)) : s = a ++ pat ++ b := by
  induction s generalizing a b with
  | nil =>
    by_cases hp : pat = ([] : List Char)
    · simp [splitFirst, hp] at h
      simp [h.1, h.2, hp]
    · simp [splitFirst, hp] at h
  | cons c s ih =>
    by_cases hp : pat.isPrefixOf (c :: s) = true
    · obtain ⟨t, ht⟩ := isPrefixOf_iff_append.mp hp
      simp only [splitFirst, hp, if_true] at h
      injection h with h
      injection h with h1 h2
      subst h1
      subst h2
      rw [← ht, List.drop_left, List.nil_append]
    · simp only [splitFirst, hp, if_false] at h
      cases hsp : splitFirst pat s with
      | none => rw [hsp] at h; exact absurd h (by simp)
      | some ab =>
        obtain ⟨a', b'⟩ := ab
        rw [hsp] at h
        injection h with h
        injection h with h1 h2
        subst h1
        subst h2
        simp [ih hsp]

theorem splitFirst_complete {pat s : List Char} (h : splitFirst pat s = none) :
    ∀ a b, s ≠ a ++ pat ++ b := by
  induction s with
  | nil =>
    intro a b hab
    by_cases hp : pat = ([] : List Char)
    · simp [splitFirst, hp] at h
    · rcases List.append_eq_nil.mp hab.symm with ⟨h1, _⟩
      rcases List.append_eq_nil.mp h1 with ⟨_, h3⟩
      exact hp h3
  | cons c s ih =>
    intro a b hab
    by_cases hp : pat.isPrefixOf (c :: s) = true
    · simp [splitFirst, hp] at h
    · simp only [splitFirst, hp, if_false] at h
      cases a with
      | nil =>
        refine hp (isPrefixOf_iff_append.mpr ⟨b, ?_⟩)
        simpa using hab.symm
      | cons a0 a' =>
        cases hsp : splitFirst pat s with
        | none =>
          simp only [List.cons_append] at hab
          injection hab with _ h2
          exact ih hsp a' b h2
        | some ab => rw [hsp] at h; exact absurd h (by simp)

theorem hasSubstr_iff {pat s : List Char} :
    hasSubstr pat s = true ↔ ∃ a b, s = a ++ pat ++ b := by
  constructor
  · intro h
    rw [hasSubstr, Option.isSome_iff_exists] at h
    obtain ⟨⟨a, b⟩, hab⟩ := h
    exact ⟨a, b, splitFirst_sound hab⟩
  · intro ⟨a, b, hab⟩
    rw [hasSubstr]
    cases hsp : splitFirst pat s with
    | none => exact absurd hab (splitFirst_complete hsp a b)
    | some ab => simp

theorem hasSubstr_of_eq_false {pat s : List Char} (h : hasSubstr pat s = false) :
    ∀ a b, s ≠ a ++ pat ++ b := by
  intro a b hab
  have : hasSubstr pat s = true := hasSubstr_iff.mpr ⟨a, b, hab⟩
  simp [this] at h

/-- Uniqueness direction: if `pat` occurs right after `x` and no
occurrence starts earlier, `splitFirst` finds exactly that one. -/
theorem splitFirst_at {pat x z : List Char} (hpat : pat ≠ [])
    (hfirst : ∀ a b, x ++ pat ++ z = a ++ pat ++ b → x.length ≤ a.length) :
    splitFirst pat (x ++ pat ++ z) = some (x, z) := by
  induction x with
  | nil =>
    have hpre : pat.isPrefixOf (pat ++ z) = true :=
      isPrefixOf_iff_append.mpr ⟨z, rfl⟩
    rw [List.nil_append, splitFirst_of_isPrefixOf hpat hpre, List.drop_left]
  | cons c x ih =>
    have hstep : ∀ a b, x ++ pat ++ z = a ++ pat ++ b → x.length ≤ a.length := by
      intro a b hab
      have := hfirst (c :: a) b (by simp [hab])
      simpa using this
    have hx := ih hstep
    have hnp : ¬ (pat.isPrefixOf (c :: (x ++ pat ++ z)) = true) := by
      intro hpre
      obtain ⟨t, ht⟩ := isPrefixOf_iff_append.mp hpre
      have h0 := hfirst [] t
        (by simp only [List.nil_append, List.cons_append]; exact ht.symm)
      simp at h0
    simp only [List.cons_append]
    simp only [splitFirst, hnp]
    rw [hx]
    simp

theorem hasSubstr_append_left {pat x y : List Char}
    (h : hasSubstr pat x = true) : hasSubstr pat (x ++ y) = true := by
  rw [hasSubstr_iff] at h ⊢
  obtain ⟨a, b, hab⟩ := h
  exact ⟨a, b ++ y, by simp [hab]⟩

theorem hasSubstr_append_right {pat x y : List Char}
    (h : hasSubstr pat y = true) : hasSubstr pat (x ++ y) = true := by
  rw [hasSubstr_iff] at h ⊢
  obtain ⟨a, b, hab⟩ := h
  exact ⟨x ++ a, b, by simp [hab]⟩

/-- An occurrence that fits inside the first part of an append is an
occurrence in that part. -/
theorem hasSubstr_of_occ_le {pat x w a b : List Char}
    (heq : x ++ w = a ++ (pat ++ b)) (hle : a.length + pat.length ≤ x.length) :
    hasSubstr pat x = true := by
  apply hasSubstr_iff.mpr
  refine ⟨a, b.take (x.length - a.length - pat.length), ?_⟩
  have hx : x = (a ++ (pat ++ b)).take x.length := by
    rw [← heq, List.take_left]
  rw [hx, List.take_append_eq_append_take, List.take_append_eq_append_take,
    List.take_of_length_le (show a.length ≤ x.length by omega),
    List.take_of_length_le (show pat.length ≤ x.length - a.length by omega)]
  simp [List.append_assoc]

/-- Spanning occurrences force a border of the pattern. -/
theorem span_border {pat x Y a b : List Char} (hbf : borderFree pat)
    (heq : x ++ Y = a ++ (pat ++ b))
    (h1 : a.length < x.length) (h2 : x.length < a.length + pat.length)
    (hY : Y.take (a.length + pat.length - x.length) =
      pat.take (a.length + pat.length - x.length)) : False := by
  set j := a.length + pat.length - x.length with hj
  have hj1 : 0 < j := by omega
  have hj2 : j < pat.length := by omega
  have heq2 : x ++ Y =
      (a ++ pat.take (pat.length - j)) ++ (pat.drop (pat.length - j) ++ b) := by
    rw [heq]
    conv_lhs => rw [← List.take_append_drop (pat.length - j) pat]
    simp only [List.append_assoc]
  have hlen : (a ++ pat.take (pat.length - j)).length = x.length := by
    simp [List.length_take]
    omega
  obtain ⟨hx, hYeq⟩ := List.append_inj heq2.symm hlen
  have hp2len : (pat.drop (pat.length - j)).length = j := by
    simp [List.length_drop]
    omega
  have hcontr : pat.drop (pat.length - j) = Y.take j := by
    rw [← hYeq, List.take_append_eq_append_take, hp2len,
      List.take_of_length_le (le_of_eq hp2len)]
    simp
  rw [hY] at hcontr
  exact hbf j hj2 hj1 hcontr

/-- If the pattern is border-free and does not occur in `x`, then in
`x ++ pat ++ z` its first occurrence is exactly the explicit one. -/
theorem splitFirst_append_of_clean {pat x z : List Char} (hpat : pat ≠ [])
    (hbf : borderFree pat) (hsub : hasSubstr pat x = false) :
    splitFirst pat (x ++ pat ++ z) = some (x, z) := by
  apply splitFirst_at hpat
  intro a b hab
  by_contra hlt
  push_neg at hlt
  have hab2 : x ++ (pat ++ z) = a ++ (pat ++ b) := by
    simpa [List.append_assoc] using hab
  by_cases hc : a.length + pat.length ≤ x.length
  · exact absurd (hasSubstr_of_occ_le hab2 hc) (by simp [hsub])
  · push_neg at hc
    apply span_border hbf hab2 hlt hc
    rw [List.take_append_eq_append_take,
      Nat.sub_eq_zero_of_le (show a.length + pat.length - x.length ≤ pat.length by omega)]
    simp

/-- Appending a proper prefix of a border-free pattern cannot create an
occurrence of the pattern. -/
theorem hasSubstr_append_take_eq_false {pat c : List Char} {k : Nat}
    (hbf : borderFree pat) (hk : k < pat.length) (hsub : hasSubstr pat c = false) :
    hasSubstr pat (c ++ pat.take k) = false := by
  by_contra h
  rw [Bool.not_eq_false, hasSubstr_iff] at h
  obtain ⟨a, b, hab⟩ := h
  have hab2 : c ++ pat.take k = a ++ (pat ++ b) := by
    simpa [List.append_assoc] using hab
  have hlen : c.length + (pat.take k).length = a.length + (pat.length + b.length) := by
    have := congrArg List.length hab2
    simpa using this
  have hkl : (pat.take k).length = k := by
    simp [List.length_take]
    omega
  by_cases hc1 : a.length + pat.length ≤ c.length
  · exact absurd (hasSubstr_of_occ_le hab2 hc1) (by simp [hsub])
  · push_neg at hc1
    by_cases hc2 : a.length < c.length
    · apply span_border hbf hab2 hc2 hc1
      have hjk : a.length + pat.length - c.length ≤ k := by omega
      rw [List.take_take, Nat.min_eq_left hjk]
    · push_neg at hc2
      omega

theorem splitFirst_length_lt {pat s a b : List Char} (hpat : pat ≠ [])
    (h : splitFirst pat s = some (a, b)) : b.length < s.length := by
  have hs := splitFirst_sound h
  have := congrArg List.length hs
  simp [List.length_append] at this
  cases pat with
  | nil => exact absurd rfl hpat
  | cons p0 pt => simp [this]; omega

theorem uiOpenTag_ne_nil : uiOpenTag ≠ [] := by decide

theorem uiCloseTag_ne_nil : uiCloseTag ≠ [] := by decide

theorem uiOpenTag_borderFree : borderFree uiOpenTag := by
  intro j hj hj0
  have h12 : uiOpenTag.length = 12 := by decide
  rw [h12] at hj
  interval_cases j <;> decide

theorem uiCloseTag_borderFree : borderFree uiCloseTag := by
  intro j hj hj0
  have h13 : uiCloseTag.length = 13 := by decide
  rw [h13] at hj
  interval_cases j <;> decide

theorem extractGo_fuel (fuel : Nat) :
    ∀ s : List Char, s.length < fuel → extractGo fuel s = extractUiPreviews s := by
  induction fuel using Nat.strong_induction_on with
  | _ fuel ih =>
    intro s hs
    obtain ⟨g, rfl⟩ : ∃ g, fuel = g + 1 := ⟨fuel - 1, by omega⟩
    rw [extractUiPreviews]
    show extractGo (g + 1) s = extractGo (s.length + 1) s
    cases h1 : splitFirst uiOpenTag s with
    | none => simp only [extractGo, h1]
    | some ab =>
      obtain ⟨a, afterOpen⟩ := ab
      cases h2 : splitFirst uiCloseTag afterOpen with
      | none => simp only [extractGo, h1, h2]
      | some cr =>
        obtain ⟨content, rest⟩ := cr
        simp only [extractGo, h1, h2]
        have hlen1 : afterOpen.length < s.length :=
          splitFirst_length_lt uiOpenTag_ne_nil h1
        have hlen2 : rest.length < afterOpen.length :=
          splitFirst_length_lt uiCloseTag_ne_nil h2
        have e1 : extractGo g rest = extractUiPreviews rest :=
          ih g (by omega) rest (by omega)
        have e2 : extractGo s.length rest = extractUiPreviews rest :=
          ih s.length (by omega) rest (by omega)
        rw [e1, e2]

/-- Peeling one well-formed block off the front of the text. -/
theorem extractUiPreviews_block {pre c rest : List Char}
    (hPre : hasSubstr uiOpenTag pre = false)
    (hC : hasSubstr uiCloseTag c = false) :
    extractUiPreviews (pre ++ uiOpenTag ++ (c ++ uiCloseTag ++ rest)) =
      (if jsTrim c = [] then [] else [jsTrim c]) ++ extractUiPreviews rest := by
  have h1 : splitFirst uiOpenTag (pre ++ uiOpenTag ++ (c ++ uiCloseTag ++ rest)) =
      some (pre, c ++ uiCloseTag ++ rest) :=
    splitFirst_append_of_clean uiOpenTag_ne_nil uiOpenTag_borderFree hPre
  have h2 : splitFirst uiCloseTag (c ++ uiCloseTag ++ rest) = some (c, rest) :=
    splitFirst_append_of_clean uiCloseTag_ne_nil uiCloseTag_borderFree hC
  rw [extractUiPreviews]
  simp only [extractGo, h1, h2]
  congr 1
  apply extractGo_fuel
  have := splitFirst_length_lt uiOpenTag_ne_nil h1
  have := splitFirst_length_lt uiCloseTag_ne_nil h2
  omega

/-- A text in which the closing delimiter never occurs yields no
previews (in particular a trailing unterminated block yields nothing). -/
theorem extractUiPreviews_eq_nil {s : List Char}
    (h : hasSubstr uiCloseTag s = false) : extractUiPreviews s = [] := by
  rw [extractUiPreviews]
  cases h1 : splitFirst uiOpenTag s with
  | none => simp only [extractGo, h1]
  | some ab =>
    obtain ⟨a, afterOpen⟩ := ab
    cases h2 : splitFirst uiCloseTag afterOpen with
    | none => simp only [extractGo, h1, h2]
    | some cr =>
      exfalso
      have hsub : hasSubstr uiCloseTag afterOpen = true := by
        rw [hasSubstr, h2]; rfl
      have hs := splitFirst_sound h1
      rw [hs] at h
      have hall : hasSubstr uiCloseTag (a ++ uiOpenTag ++ afterOpen) = true := by
        rw [List.append_assoc]
        exact hasSubstr_append_right (hasSubstr_append_right hsub)
      rw [hall] at h
      simp at h

theorem hasSubstr_self {pat : List Char} : hasSubstr pat pat = true :=
  hasSubstr_iff.mpr ⟨[], [], by simp⟩

theorem extractUiPreviews_buildBlocks (trailing : List Char)
    (ht : hasSubstr uiCloseTag trailing = false) :
    ∀ blocks : List (List Char × List Char),
      (∀ pc ∈ blocks, hasSubstr uiOpenTag pc.1 = false ∧
        hasSubstr uiCloseTag pc.2 = false) →
      extractUiPreviews (buildBlocks blocks trailing) =
        (blocks.map fun pc => jsTrim pc.2).filter fun t => !t.isEmpty := by
  intro blocks
  induction blocks with
  | nil =>
    intro _
    simpa [buildBlocks] using extractUiPreviews_eq_nil ht
  | cons pc bs ih =>
    intro hb
    obtain ⟨pre, c⟩ := pc
    have h1 := (hb (pre, c) (by simp)).1
    have h2 := (hb (pre, c) (by simp)).2
    rw [buildBlocks, extractUiPreviews_block h1 h2,
      ih (fun pc hpc => hb pc (by simp [hpc]))]
    by_cases hc : jsTrim c = []
    · simp [hc, List.filter_cons]
    · simp [hc, List.filter_cons, List.isEmpty_iff]

/-- C4 (amended).  For a text made of segments and N well-formed,
non-nested preview blocks followed by a trailing segment in which the
closing delimiter does not occur (in particular an unterminated final
block), `extractUiPreviews` returns the trimmed contents of exactly
those complete blocks whose trimmed content is nonempty, in source
order — a block whose content trims to empty is dropped by the
truthiness test, which is the one correction to the claim — and
`getLatestUiPreview` returns the last of these, or none. -/
theorem c4_extract_all_blocks (blocks : List (List Char × List Char))
    (trailing : List Char)
    (hb : ∀ pc ∈ blocks, hasSubstr uiOpenTag pc.1 = false ∧
      hasSubstr uiCloseTag pc.2 = false)
    (ht : hasSubstr uiCloseTag trailing = false) :
    extractUiPreviews (buildBlocks blocks trailing) =
      ((blocks.map fun pc => jsTrim pc.2).filter fun t => !t.isEmpty) ∧
    getLatestUiPreview (buildBlocks blocks trailing) =
      ((blocks.map fun pc => jsTrim pc.2).filter fun t => !t.isEmpty).getLast? := by
  have hmain := extractUiPreviews_buildBlocks trailing ht blocks hb
  exact ⟨hmain, by rw [getLatestUiPreview, hmain]⟩

/-- C4 (counterexample to the claim as stated).  The text consists of
exactly one well-formed UI-preview block (with whitespace content), yet
`extractUiPreviews` returns zero strings, not one: the source's
`if (code)` check drops a block whose trimmed content is empty. -/
theorem c4_extract_counterexample :
    extractUiPreviews ("<ui_preview>   </ui_preview>".toList) = [] ∧
    "<ui_preview>   </ui_preview>".toList =
      [] ++ uiOpenTag ++ ("   ".toList ++ uiCloseTag ++ []) := by
  constructor
  · decide
  · decide

/-- Witness for `c4_extract_all_blocks` at a concrete three-block text
whose middle block trims to empty and whose trailing segment is an
unterminated block. -/
theorem c4_extract_all_blocks_witness :
    extractUiPreviews (buildBlocks
        [("Intro ".toList, " <div>one</div> ".toList),
         (" mid ".toList, "  ".toList),
         ("x".toList, "<p>two</p>".toList)]
        "tail <ui_preview> oops".toList) =
      ["<div>one</div>".toList, "<p>two</p>".toList] ∧
    getLatestUiPreview (buildBlocks
        [("Intro ".toList, " <div>one</div> ".toList),
         (" mid ".toList, "  ".toList),
         ("x".toList, "<p>two</p>".toList)]
        "tail <ui_preview> oops".toList) = some ("<p>two</p>".toList) := by
  obtain ⟨h1, h2⟩ := c4_extract_all_blocks
    [("Intro ".toList, " <div>one</div> ".toList),
     (" mid ".toList, "  ".toList),
     ("x".toList, "<p>two</p>".toList)]
    "tail <ui_preview> oops".toList (by decide) (by decide)
  constructor
  · rw [h1]; decide
  · rw [h2]; decide

/-- C9 (confirmed).  With the first block's opening tag present and
no closing delimiter yet, feeding the closing delimiter in one piece or
character by character: `hasCompleteUiPreview` is false for every
proper prefix of the closing delimiter and true from the moment the
complete closing delimiter has been appended (and stays true for every
extension). -/
theorem c9_is_complete_only_after_close (pre c : List Char)
    (hPre : hasSubstr uiOpenTag pre = false)
    (hC : hasSubstr uiCloseTag c = false) :
    (∀ k, k < uiCloseTag.length →
      hasCompleteUiPreview (pre ++ uiOpenTag ++ (c ++ uiCloseTag.take k)) = false) ∧
    (∀ ext, hasCompleteUiPreview (pre ++ uiOpenTag ++ (c ++ (uiCloseTag ++ ext))) = true) := by
  constructor
  · intro k hk
    have h1 : splitFirst uiOpenTag (pre ++ uiOpenTag ++ (c ++ uiCloseTag.take k)) =
        some (pre, c ++ uiCloseTag.take k) :=
      splitFirst_append_of_clean uiOpenTag_ne_nil uiOpenTag_borderFree hPre
    simp only [hasCompleteUiPreview, h1]
    exact hasSubstr_append_take_eq_false uiCloseTag_borderFree hk hC
  · intro ext
    have h1 : splitFirst uiOpenTag (pre ++ uiOpenTag ++ (c ++ (uiCloseTag ++ ext))) =
        some (pre, c ++ (uiCloseTag ++ ext)) :=
      splitFirst_append_of_clean uiOpenTag_ne_nil uiOpenTag_borderFree hPre
    simp only [hasCompleteUiPreview, h1]
    exact hasSubstr_append_right (hasSubstr_append_left hasSubstr_self)

/-- Witness for `c9_is_complete_only_after_close`: streaming
`Here: <ui_preview><div>hi</div>` then the closing tag one character at
a time, completeness flips exactly at the final `>`. -/
theorem c9_is_complete_witness :
    hasCompleteUiPreview ("Here: ".toList ++ uiOpenTag ++
      ("<div>hi</div>".toList ++ uiCloseTag.take 12)) = false ∧
    hasCompleteUiPreview ("Here: ".toList ++ uiOpenTag ++
      ("<div>hi</div>".toList ++ (uiCloseTag ++ []))) = true := by
  have h := c9_is_complete_only_after_close "Here: ".toList "<div>hi</div>".toList
    (by decide) (by decide)
  exact ⟨h.1 12 (by decide), h.2 []⟩

theorem takeThrough_of_not_any {p : List Char → Bool} {l : List (List Char)}
    (h : l.any p = false) : takeThrough p l = l := by
  induction l with
  | nil => rfl
  | cons e es ih =>
    simp only [List.any_cons, Bool.or_eq_false_iff] at h
    simp [takeThrough, h.1, ih h.2]

theorem takeThrough_append (p : List Char → Bool) (xs ys : List (List Char)) :
    takeThrough p (xs ++ ys) =
      if xs.any p then takeThrough p xs else xs ++ takeThrough p ys := by
  induction xs with
  | nil => simp [takeThrough]
  | cons e es ih =>
    by_cases he : p e = true
    · simp [takeThrough, he]
    · simp only [Bool.not_eq_true] at he
      rw [List.cons_append,
        show takeThrough p (e :: (es ++ ys)) = e :: takeThrough p (es ++ ys) from by
          simp [takeThrough, he],
        ih, List.any_cons, he, Bool.false_or]
      by_cases hes : es.any p = true
      · rw [if_pos hes, if_pos hes,
          show takeThrough p (e :: es) = e :: takeThrough p es from by
            simp [takeThrough, he]]
      · rw [if_neg hes, if_neg hes, List.cons_append]

theorem splitNl_ne_nil (s : List Char) : splitNl s ≠ [] := by
  cases s with
  | nil => simp [splitNl]
  | cons c t =>
    by_cases hc : c = '\n'
    · simp [splitNl, hc]
    · simp only [splitNl, hc, if_false]
      cases splitNl t <;> simp

theorem getLastD_irrel {α : Type} {l : List α} (h : l ≠ []) (d1 d2 : α) :
    l.getLastD d1 = l.getLastD d2 := by
  cases l with
  | nil => exact absurd rfl h
  | cons a t => rw [List.getLastD_cons, List.getLastD_cons]

/-- The function `splitNlIL` is `split` followed by `pop`. -/
theorem splitNlIL_eq (s : List Char) :
    splitNlIL s = ((splitNl s).dropLast, (splitNl s).getLastD []) := by
  induction s with
  | nil => simp [splitNlIL, splitNl]
  | cons c s ih =>
    by_cases hc : c = '\n'
    · simp only [splitNlIL, splitNl, hc, if_true]
      rw [ih]
      cases hsp : splitNl s with
      | nil => exact absurd hsp (splitNl_ne_nil s)
      | cons p ps =>
        cases ps with
        | nil => simp [List.getLastD_cons]
        | cons q qs => simp [List.getLastD_cons]
    · simp only [splitNlIL, splitNl, hc, if_false]
      rw [ih]
      cases hsp : splitNl s with
      | nil => exact absurd hsp (splitNl_ne_nil s)
      | cons p ps =>
        cases ps with
        | nil => simp [List.getLastD_cons]
        | cons q qs => simp [List.getLastD_cons]

theorem splitNlIL_append (a b : List Char) :
    splitNlIL (a ++ b) =
      ((splitNlIL a).1 ++ (glueIL (splitNlIL a).2 (splitNlIL b)).1,
        (glueIL (splitNlIL a).2 (splitNlIL b)).2) := by
  induction a with
  | nil =>
    simp only [List.nil_append, splitNlIL, glueIL]
    cases hb : (splitNlIL b).1 with
    | nil => exact Prod.ext_iff.mpr ⟨hb, rfl⟩
    | cons l0 ls => exact Prod.ext_iff.mpr ⟨hb, rfl⟩
  | cons c a ih =>
    by_cases hc : c = '\n'
    · simp [splitNlIL, hc, ih]
    · simp only [List.cons_append, splitNlIL, hc, if_false]
      rw [show splitNlIL (a.append b) = splitNlIL (a ++ b) from rfl, ih]
      cases ha : (splitNlIL a).1 with
      | nil =>
        cases hb : (splitNlIL b).1 with
        | nil => simp [glueIL, ha, hb]
        | cons l0 ls => simp [glueIL, ha, hb]
      | cons l0 ls => simp [glueIL, ha]

theorem splitNlIL_no_newline {s : List Char} (h : '\n' ∉ s) :
    splitNlIL s = ([], s) := by
  induction s with
  | nil => rfl
  | cons c s ih =>
    simp only [List.mem_cons, not_or] at h
    have hc : ¬ (c = '\n') := fun hcc => h.1 hcc.symm
    simp [splitNlIL, hc, ih h.2]

theorem splitNlIL_snd_no_newline (s : List Char) : '\n' ∉ (splitNlIL s).2 := by
  induction s with
  | nil => simp [splitNlIL]
  | cons c s ih =>
    by_cases hc : c = '\n'
    · simpa [splitNlIL, hc] using ih
    · simp only [splitNlIL, hc, if_false]
      cases ha : (splitNlIL s).1 with
      | nil =>
        simp only [List.mem_cons, not_or]
        exact ⟨fun hcc => hc hcc.symm, ih⟩
      | cons l0 ls => simpa using ih

theorem readSSEStream_eq (stop : List Char → Bool) :
    ∀ (chunks : List (List Char)) (buffer : List Char), '\n' ∉ buffer →
      readSSEStream stop chunks buffer =
        sseEventsOf stop (buffer ++ chunks.flatten) := by
  intro chunks
  induction chunks with
  | nil =>
    intro buffer hb
    have h1 : (splitNl buffer).dropLast = [] := by
      have he := splitNlIL_eq buffer
      rw [splitNlIL_no_newline hb] at he
      exact (congrArg Prod.fst he).symm
    simp only [readSSEStream, sseEventsOf, List.flatten_nil, List.append_nil, h1,
      List.filterMap_nil, takeThrough]
  | cons chunk chunks ih =>
    intro buffer hb
    have hfa : '\n' ∉ (splitNlIL (buffer ++ chunk)).2 := splitNlIL_snd_no_newline _
    have hdrop : (splitNl (buffer ++ chunk)).dropLast =
        (splitNlIL (buffer ++ chunk)).1 :=
      (congrArg Prod.fst (splitNlIL_eq (buffer ++ chunk))).symm
    have hlast : (splitNl (buffer ++ chunk)).getLastD [] =
        (splitNlIL (buffer ++ chunk)).2 :=
      (congrArg Prod.snd (splitNlIL_eq (buffer ++ chunk))).symm
    have hihr := ih (splitNlIL (buffer ++ chunk)).2 hfa
    have hkey : (splitNlIL ((buffer ++ chunk) ++ chunks.flatten)).1 =
        (splitNlIL (buffer ++ chunk)).1 ++
          (splitNlIL ((splitNlIL (buffer ++ chunk)).2 ++ chunks.flatten)).1 := by
      rw [splitNlIL_append (buffer ++ chunk) chunks.flatten,
        splitNlIL_append ((splitNlIL (buffer ++ chunk)).2) chunks.flatten,
        splitNlIL_no_newline hfa]
      simp
    simp only [readSSEStream]
    rw [hdrop, hlast, hihr]
    simp only [sseEventsOf, List.flatten_cons]
    rw [← List.append_assoc]
    have hb1 : (splitNl ((buffer ++ chunk) ++ chunks.flatten)).dropLast =
        (splitNlIL ((buffer ++ chunk) ++ chunks.flatten)).1 :=
      (congrArg Prod.fst (splitNlIL_eq _)).symm
    have hb2 : (splitNl ((splitNlIL (buffer ++ chunk)).2 ++ chunks.flatten)).dropLast =
        (splitNlIL ((splitNlIL (buffer ++ chunk)).2 ++ chunks.flatten)).1 :=
      (congrArg Prod.fst (splitNlIL_eq _)).symm
    rw [hb1, hb2, hkey, List.filterMap_append, takeThrough_append]

/-- C5 (confirmed).  Chunking invariance of the SSE frame reader:
any two ways of splitting the same byte stream into chunks deliver the
identical sequence of event payloads to the callback, because the last
incomplete line of each chunk is carried over and prepended to the next
chunk before re-splitting on newlines. -/
theorem c5_sse_chunking_invariance (stop : List Char → Bool)
    (chunks1 chunks2 : List (List Char)) (h : chunks1.flatten = chunks2.flatten) :
    readSSEStream stop chunks1 [] = readSSEStream stop chunks2 [] := by
  rw [readSSEStream_eq stop chunks1 [] (by simp),
    readSSEStream_eq stop chunks2 [] (by simp), h]

/-- Witness for `c5_sse_chunking_invariance`: the same two `data:`
events split at an arbitrary boundary inside the second event. -/
theorem c5_sse_chunking_invariance_witness :
    (["data: a\nda".toList, "ta: b\n".toList].flatten =
      ["data: a\ndata: b\n".toList].flatten) ∧
    readSSEStream (fun d => d = "[DONE]".toList)
        ["data: a\nda".toList, "ta: b\n".toList] [] =
      readSSEStream (fun d => d = "[DONE]".toList)
        ["data: a\ndata: b\n".toList] [] :=
  ⟨by decide, c5_sse_chunking_invariance _ _ _ (by decide)⟩

/-- C10 (confirmed).  When the stream ends while the carry-over
buffer still holds a final line not terminated by a newline, that
line's payload is never delivered: appending such a trailing chunk to
any stream leaves the delivered payloads unchanged, because the
carry-over buffer is discarded at end of stream and only
newline-terminated `data: ` lines produce events. -/
theorem c10_carry_over_discarded (stop : List Char → Bool)
    (chunks : List (List Char)) (s : List Char) (hs : '\n' ∉ s) :
    readSSEStream stop (chunks ++ [s]) [] = readSSEStream stop chunks [] := by
  rw [readSSEStream_eq stop (chunks ++ [s]) [] (by simp),
    readSSEStream_eq stop chunks [] (by simp)]
  simp only [sseEventsOf, List.flatten_append, List.flatten_cons, List.flatten_nil,
    List.append_nil, List.nil_append]
  have h1 : (splitNlIL (chunks.flatten ++ s)).1 = (splitNlIL chunks.flatten).1 := by
    rw [splitNlIL_append chunks.flatten s, splitNlIL_no_newline hs]
    simp [glueIL]
  have hbr1 : (splitNl (chunks.flatten ++ s)).dropLast =
      (splitNlIL (chunks.flatten ++ s)).1 :=
    (congrArg Prod.fst (splitNlIL_eq _)).symm
  have hbr2 : (splitNl chunks.flatten).dropLast = (splitNlIL chunks.flatten).1 :=
    (congrArg Prod.fst (splitNlIL_eq _)).symm
  rw [hbr1, hbr2, h1]

/-- Witness for `c10_carry_over_discarded`: a trailing `data: lost`
line with no final newline is never delivered. -/
theorem c10_carry_over_discarded_witness :
    readSSEStream (fun d => d = "[DONE]".toList)
        (["data: kept\n".toList] ++ ["data: lost".toList]) [] =
      readSSEStream (fun d => d = "[DONE]".toList) ["data: kept\n".toList] [] :=
  c10_carry_over_discarded _ _ _ (by decide)

theorem findConv_map_update (convs : List Conversation) (cid : String)
    (g : Conversation → Conversation) (hg : ∀ c, (g c).id = c.id) :
    findConv (convs.map fun c => if c.id == cid then g c else c) cid =
      (findConv convs cid).map fun c => if c.id == cid then g c else c := by
  induction convs with
  | nil => rfl
  | cons c cs ih =>
    by_cases hc : (c.id == cid) = true
    · have h2 : ((g c).id == cid) = true := by rw [hg]; exact hc
      simp only [List.map_cons, findConv, if_pos hc, List.find?_cons]
      rw [h2, hc]
      have hceq : c.id = cid := by simpa using hc
      simp [hceq]
    · have hcf : (c.id == cid) = false := by simpa using hc
      simp only [List.map_cons, findConv, List.find?_cons, hcf,
        Bool.false_eq_true, if_false]
      exact ih

theorem findConv_setSpecDoc {convs : List Conversation} {cid : String}
    {c : Conversation} (phase : ConversationPhase) (content : String)
    (hfind : findConv convs cid = some c) :
    findConv (setSpecDoc convs cid phase content) cid =
      some { c with
        specDocs := fun p => if p = phase then some content else c.specDocs p } := by
  have hpred : (c.id == cid) = true := by
    have h := hfind
    unfold findConv at h
    simpa using List.find?_some h
  unfold setSpecDoc
  rw [findConv_map_update convs cid
    (fun c => { c with
      specDocs := fun p => if p = phase then some content else c.specDocs p })
    (fun _ => rfl), hfind]
  have hceq : c.id = cid := by simpa using hpred
  simp [hceq]

theorem findConv_setPhase {convs : List Conversation} {cid : String}
    {c : Conversation} (phase : ConversationPhase)
    (hfind : findConv convs cid = some c) :
    findConv (setPhase convs cid phase) cid = some { c with phase := phase } := by
  have hpred : (c.id == cid) = true := by
    have h := hfind
    unfold findConv at h
    simpa using List.find?_some h
  unfold setPhase
  rw [findConv_map_update convs cid (fun c => { c with phase := phase })
    (fun _ => rfl), hfind]
  have hceq : c.id = cid := by simpa using hpred
  simp [hceq]

theorem findConv_appendToLastAssistant {convs : List Conversation} {cid : String}
    {c : Conversation} (chunk : String)
    (hfind : findConv convs cid = some c) :
    findConv (appendToLastAssistant convs cid chunk) cid =
      some { c with messages := appendLastMessage c.messages chunk } := by
  have hpred : (c.id == cid) = true := by
    have h := hfind
    unfold findConv at h
    simpa using List.find?_some h
  unfold appendToLastAssistant
  rw [findConv_map_update convs cid
    (fun c => { c with messages := appendLastMessage c.messages chunk })
    (fun _ => rfl), hfind]
  have hceq : c.id = cid := by simpa using hpred
  simp [hceq]

/-- C2 (confirmed).  Locking a conversation in phase "vision" with
the stream completing normally stores the full streamed response as the
"vision" spec document while writing nothing under "design", and
advances the phase to "design"; locking in the terminal phase "export"
stores the "export" document and does not advance the phase. -/
theorem c2_lock_phase :
    (∀ (convs : List Conversation) (cid r : String) (c : Conversation),
      findConv convs cid = some c → c.phase = .vision →
      c.specDocs .design = none →
      ∃ c', findConv (handleLockPhase convs cid r) cid = some c' ∧
        c'.specDocs .vision = some r ∧ c'.specDocs .design = none ∧
        c'.phase = .design) ∧
    (∀ (convs : List Conversation) (cid r : String) (c : Conversation),
      findConv convs cid = some c → c.phase = .exportPhase →
      ∃ c', findConv (handleLockPhase convs cid r) cid = some c' ∧
        c'.specDocs .exportPhase = some r ∧ c'.phase = .exportPhase) := by
  constructor
  · intro convs cid r c hfind hphase hdesign
    have hcur : currentPhaseOf convs cid = ConversationPhase.vision := by
      simp only [currentPhaseOf, hfind]
      exact hphase
    have hunfold : handleLockPhase convs cid r =
        setPhase (setSpecDoc convs cid ConversationPhase.vision r) cid
          ConversationPhase.design := by
      simp only [handleLockPhase]
      rw [hcur]
      rw [show PHASE_ORDER.indexOf ConversationPhase.vision + 1 = 1 from by decide]
      rw [if_pos (by decide)]
      rw [show PHASE_ORDER.getD 1 ConversationPhase.vision =
        ConversationPhase.design from by decide]
    rw [hunfold]
    have h1 := findConv_setSpecDoc ConversationPhase.vision r hfind
    have h2 := findConv_setPhase ConversationPhase.design h1
    refine ⟨_, h2, ?_, ?_, ?_⟩
    · simp
    · simp [hdesign]
    · rfl
  · intro convs cid r c hfind hphase
    have hcur : currentPhaseOf convs cid = ConversationPhase.exportPhase := by
      simp only [currentPhaseOf, hfind]
      exact hphase
    have hunfold : handleLockPhase convs cid r =
        setSpecDoc convs cid ConversationPhase.exportPhase r := by
      simp only [handleLockPhase]
      rw [hcur]
      rw [show PHASE_ORDER.indexOf ConversationPhase.exportPhase + 1 = 4 from by decide]
      rw [if_neg (by decide)]
    rw [hunfold]
    have h1 := findConv_setSpecDoc ConversationPhase.exportPhase r hfind
    refine ⟨_, h1, ?_, ?_⟩
    · simp
    · simpa using hphase

/-- Witness for `c2_lock_phase` on fresh single-conversation stores. -/
theorem c2_lock_phase_witness :
    (∃ c', findConv (handleLockPhase [demoConv .vision] "c1" "SPEC") "c1" =
        some c' ∧
      c'.specDocs .vision = some "SPEC" ∧ c'.specDocs .design = none ∧
      c'.phase = .design) ∧
    (∃ c', findConv (handleLockPhase [demoConv .exportPhase] "c1" "PLAN") "c1" =
        some c' ∧
      c'.specDocs .exportPhase = some "PLAN" ∧ c'.phase = .exportPhase) := by
  constructor
  · exact c2_lock_phase.1 [demoConv .vision] "c1" "SPEC" (demoConv .vision)
      (by rfl) (by rfl) (by rfl)
  · exact c2_lock_phase.2 [demoConv .exportPhase] "c1" "PLAN"
      (demoConv .exportPhase) (by rfl) (by rfl)

theorem foldl_appendToLastAssistant (cid : String) :
    ∀ (deltas : List String) (convs : List Conversation) (c : Conversation)
      (m : Message),
      findConv convs cid = some c →
      c.messages.getLast? = some m → m.role = "assistant" →
      ∃ c', findConv
          (deltas.foldl (fun cs d => appendToLastAssistant cs cid d) convs) cid =
            some c' ∧
        c'.messages = c.messages.dropLast ++
          [{ m with content := m.content ++ concatStrings deltas }] ∧
        c'.phase = c.phase := by
  intro deltas
  induction deltas with
  | nil =>
    intro convs c m hfind hlast hrole
    refine ⟨c, hfind, ?_, rfl⟩
    have hne : c.messages ≠ [] := by
      intro hnil
      rw [hnil] at hlast
      simp at hlast
    have hl := List.getLast?_eq_getLast c.messages hne
    rw [hl] at hlast
    injection hlast with hlast
    rw [show concatStrings [] = "" from rfl]
    rw [show ({ m with content := m.content ++ "" } : Message) = m from by
      simp]
    rw [← hlast]
    exact (List.dropLast_append_getLast hne).symm
  | cons d ds ih =>
    intro convs c m hfind hlast hrole
    have happ := findConv_appendToLastAssistant d hfind
    have hmsg : appendLastMessage c.messages d =
        c.messages.dropLast ++ [{ m with content := m.content ++ d }] := by
      unfold appendLastMessage
      rw [hlast]
      simp [hrole]
    rw [hmsg] at happ
    have hlast2 : ({ c with messages := c.messages.dropLast ++
        [{ m with content := m.content ++ d }] } : Conversation).messages.getLast? =
        some { m with content := m.content ++ d } := by
      simp
    obtain ⟨c', hc1, hc2, hc3⟩ := ih _ _ _ happ hlast2 hrole
    refine ⟨c', ?_, ?_, hc3⟩
    · simpa using hc1
    · rw [hc2]
      simp [List.dropLast_concat, concatStrings, String.append_assoc]

/-- C7 (confirmed).  Triggering the abort signal never invokes the
error callback — `handleStreamError` maps an AbortError to the
completion callback — and the assistant message then contains exactly
the prior content followed by the concatenation of the deltas received
before the abort: nothing removed, nothing appended. -/
theorem c7_abort_completes_and_preserves_deltas :
    handleStreamError .abortError = .onDone ∧
    (∀ (convs : List Conversation) (cid : String) (c : Conversation)
      (deltas : List String) (m : Message),
      findConv convs cid = some c →
      c.messages.getLast? = some m → m.role = "assistant" →
      ∃ c', findConv
          ((deltas.map StreamCallback.onChunk ++
              [handleStreamError .abortError]).foldl
            (fun cs e => applyChatCallback cs cid e) convs) cid = some c' ∧
        c'.messages.getLast? =
          some { m with content := m.content ++ concatStrings deltas } ∧
        c'.messages.dropLast = c.messages.dropLast ∧
        c'.phase = c.phase) := by
  refine ⟨rfl, ?_⟩
  intro convs cid c deltas m hfind hlast hrole
  have hfold : (deltas.map StreamCallback.onChunk ++
      [handleStreamError .abortError]).foldl
        (fun cs e => applyChatCallback cs cid e) convs =
      deltas.foldl (fun cs d => appendToLastAssistant cs cid d) convs := by
    rw [List.foldl_append, List.foldl_map]
    rfl
  rw [hfold]
  obtain ⟨c', h1, h2, h3⟩ :=
    foldl_appendToLastAssistant cid deltas convs c m hfind hlast hrole
  refine ⟨c', h1, ?_, ?_, h3⟩
  · rw [h2]
    exact List.getLast?_concat _
  · rw [h2]
    exact List.dropLast_concat

/-- Witness for `c7_abort_completes_and_preserves_deltas`: two deltas
arrive, then the abort; the assistant message ends with exactly them. -/
theorem c7_abort_witness :
    handleStreamError .abortError = .onDone ∧
    (∃ c', findConv ((["lo", " wor"].map StreamCallback.onChunk ++
          [handleStreamError .abortError]).foldl
            (fun cs e => applyChatCallback cs "c1" e) [demoChatConv]) "c1" =
        some c' ∧
      c'.messages.getLast? =
        some { demoAssistantMsg with
               content := demoAssistantMsg.content ++ concatStrings ["lo", " wor"] } ∧
      c'.messages.dropLast = demoChatConv.messages.dropLast ∧
      c'.phase = demoChatConv.phase) := by
  obtain ⟨h0, h⟩ := c7_abort_completes_and_preserves_deltas
  exact ⟨h0, h [demoChatConv] "c1" demoChatConv ["lo", " wor"] demoAssistantMsg
    (by rfl) (by rfl) (by rfl)⟩

/-- C1 (code bug).  The claim — and the spec's adapter contract —
says the completion callback is invoked exactly once and that a
provider stream-termination signal results in normal completion.  The
termination signal does complete normally (no error callback), but the
sentinel branches of `streamOpenAI`, `streamMistral` and
`streamAnthropic` call `onDone()` and then fall through to the
unconditional `onDone()` after `readSSEStream` returns, so on a
`[DONE]` sentinel or `message_stop` event the completion callback is
invoked twice, not once; only streams ending without a termination
signal (and `streamGemini`, which has no sentinel branch) complete
exactly once. -/
theorem c1_done_invoked_twice_on_sentinel :
    streamOpenAI [.doneSentinel] = [.onDone, .onDone] ∧
    streamMistral [.doneSentinel] = [.onDone, .onDone] ∧
    streamAnthropic [.messageStop] = [.onDone, .onDone] ∧
    streamOpenAI [.delta (some "hi"), .doneSentinel] =
      [.onChunk "hi", .onDone, .onDone] ∧
    streamOpenAI [.delta (some "hi")] = [.onChunk "hi", .onDone] ∧
    streamGemini [.textDelta (some "hi")] = [.onChunk "hi", .onDone] ∧
    (streamOpenAI [.doneSentinel]).count .onDone = 2 :=
  ⟨rfl, rfl, rfl, rfl, rfl, rfl, by decide⟩

/-- C6 (confirmed).  The validator rejects — with a message naming
the specific defect — exactly when the quote/comment-aware scan leaves
a string or template literal open, leaves the brace or paren counter
nonzero, or no function definition occurs in the text; the claim's
well-formed example passes and its truncated example fails with the
mismatched-braces diagnostic. -/
theorem c6_validator_rejects_iff :
    (∀ code : List Char, (validateJSXStructure code).isOk = false ↔
      ((validatorState code).inString = true ∨
       (validatorState code).inTemplate = true ∨
       (validatorState code).braces ≠ 0 ∨
       (validatorState code).parens ≠ 0 ∨
       hasFunctionDef code = false)) ∧
    validateJSXStructure
      "function App()\x7breturn (<div>\x7bx\x7d</div>);\x7d".toList = .ok () ∧
    validateJSXStructure "function App()\x7breturn (<div>".toList =
      .error "Mismatched braces: 1 unclosed" := by
  refine ⟨?_, by rfl, by rfl⟩
  intro code
  unfold validateJSXStructure
  by_cases h1 : (validatorState code).inString = true
  · simp [h1, Except.isOk, Except.toBool]
  · by_cases h2 : (validatorState code).inTemplate = true
    · simp [h1, h2, Except.isOk, Except.toBool]
    · by_cases h3 : (validatorState code).braces = 0
      · by_cases h4 : (validatorState code).parens = 0
        · by_cases h5 : hasFunctionDef code = true
          · simp [h1, h2, h3, h4, h5, Except.isOk, Except.toBool]
          · simp [h1, h2, h3, h4, h5, Except.isOk, Except.toBool]
        · simp [h1, h2, h3, h4, Except.isOk, Except.toBool]
      · simp [h1, h2, h3, Except.isOk, Except.toBool]

theorem foldl_append_flatten {α : Type} (f : α → List Char) :
    ∀ (l : List α) (acc : List Char),
      l.foldl (fun a x => a ++ f x) acc = acc ++ (l.map f).flatten := by
  intro l
  induction l with
  | nil => intro acc; simp
  | cons x xs ih =>
    intro acc
    simp only [List.foldl_cons, List.map_cons, List.flatten_cons, ih,
      List.append_assoc]

/-- C3 (counterexample to the claim as stated).  On the claim's
truncated input `function App(){return (<div>` the repairer appends no
`</div>` at all: the tag regexes require a capitalized
(component-style) tag name, so `<div>` never enters the tag stack, and
only `)`, `;` and `}` are appended. -/
theorem c3_repair_counterexample :
    repairTruncatedCode "function App()\x7breturn (<div>".toList =
      "function App()\x7breturn (<div>\n);\n\x7d".toList ∧
    hasSubstr "</div>".toList
      (repairTruncatedCode "function App()\x7breturn (<div>".toList) = false ∧
    repairTagStack "function App()\x7breturn (<div>".toList = [] :=
  ⟨by rfl, by rfl, by rfl⟩

/-- C3 (amended).  The repairer appends at end of input, in order:
one closing tag per still-open tag-stack entry in reverse (LIFO) order,
then closing parentheses (and a `;`) equal to the positive paren
excess, then closing braces equal to the positive brace excess — but
the tag stack only ever contains capitalized (component-style) tag
names, so on the claim's lowercase `<div>` example only `)`, `;`, `}`
are appended, and the repaired text passes the structural validator; on
a capitalized two-tag variant the closing tags appear in LIFO order
before the parens and braces. -/
theorem c3_repair_appends_in_order :
    (∀ code : List Char, repairTruncatedCode code =
      code ++ ((repairTagStack code).reverse.map tagCloseText).flatten ++
        (if (repairScan code none initScanState).parens > 0 then
          '\n' :: (List.replicate (repairScan code none initScanState).parens.toNat ')' ++ [';'])
         else []) ++
        (if (repairScan code none initScanState).braces > 0 then
          '\n' :: List.replicate (repairScan code none initScanState).braces.toNat '}'
         else [])) ∧
    repairTruncatedCode "function App()\x7breturn (<div>".toList =
      "function App()\x7breturn (<div>\n);\n\x7d".toList ∧
    validateJSXStructure
      (repairTruncatedCode "function App()\x7breturn (<div>".toList) = .ok () ∧
    repairTruncatedCode "function App()\x7breturn (<Card><Title>".toList =
      "function App()\x7breturn (<Card><Title>\n</Title>\n</Card>\n);\n\x7d".toList := by
  refine ⟨?_, by rfl, by rfl, by rfl⟩
  intro code
  simp only [repairTruncatedCode]
  rw [foldl_append_flatten, List.nil_append]
  have hiff : ∀ s : List Char, (if s = [] then code else code ++ s) = code ++ s := by
    intro s
    split_ifs with h
    · rw [h, List.append_nil]
    · rfl
  rw [hiff]
  by_cases hp : (repairScan code none initScanState).parens > 0
  · by_cases hb : (repairScan code none initScanState).braces > 0
    · simp [hp, hb, List.append_assoc]
    · simp [hp, hb, List.append_assoc]
  · by_cases hb : (repairScan code none initScanState).braces > 0
    · simp [hp, hb, List.append_assoc]
    · simp [hp, hb, List.append_assoc]

/-- C8 (counterexample to the claim as stated).  The preview
cleanup strips a trailing fence even when no fence wraps the entire
trimmed buffer: the input is already trimmed and has no full-wrap
match, yet it is not returned unchanged — its trailing ``` is
removed. -/
theorem c8_fence_counterexample :
    jsTrim "x = 1;\n```".toList = "x = 1;\n```".toList ∧
    fenceFullMatch jsFenceLangs "x = 1;\n```".toList = none ∧
    onDoneCleanFences "x = 1;\n```".toList = "x = 1;".toList :=
  ⟨by rfl, by rfl, by rfl⟩

/-- C8 (amended).  The full-wrap regex of both stripping sites only
matches a fence wrapping the entire trimmed buffer, and fences embedded
in the content survive it; the claim's jsx input strips to the function
line exactly once, with no residual backticks, and a fence-free input
is returned unchanged.  However (the corrections): the preview cleanup
additionally strips residual leading-only or trailing-only fences that
do not wrap the buffer, and the markdown `stripOuterCodeFence` only
recognises `markdown`/`md`/untagged fences, so it leaves the jsx
example untouched (stripping only its own markdown example). -/
theorem c8_fence_stripping :
    onDoneCleanFences
      "```jsx\nfunction App()\x7breturn null;\x7d\n```".toList =
      "function App()\x7breturn null;\x7d".toList ∧
    onDoneCleanFences "```jsx\nA\n```\nB\n```".toList = "A\n```\nB".toList ∧
    onDoneCleanFences "function App()\x7breturn null;\x7d".toList =
      "function App()\x7breturn null;\x7d".toList ∧
    onDoneCleanFences "x = 1;\n``` \n".toList = "x = 1;".toList ∧
    stripOuterCodeFence "```markdown\nhello *world*\n```".toList =
      "hello *world*".toList ∧
    stripOuterCodeFence
      "```jsx\nfunction App()\x7breturn null;\x7d\n```".toList =
      "```jsx\nfunction App()\x7breturn null;\x7d\n```".toList ∧
    stripOuterCodeFence "plain text".toList = "plain text".toList :=
  ⟨by rfl, by rfl, by rfl, by rfl, by rfl, by rfl, by rfl⟩
